import Mathlib

/-!
Verification development for the retrieval subsystem of a RAG question-answering
service.  The definitions below are a shallow embedding of the Python sources:

* `app/services/vector_store.py` — the FAISS-backed `VectorStore` (vectors,
  parallel chunk metadata, and the `document_id → positions` mapping), with
  `add_embeddings`, `search`, `delete_document` and the count accessors.
* `app/services/chunker.py` — the `TextChunker` recursive character splitter.

Python strings are modelled as `List Char`, Python `int` as `Int` (ℕ where the
source value is a length or an index), embedding coordinates as `ℚ`, and the
Python dict `document_chunks` as an insertion-ordered association list.
-/

set_option maxRecDepth 8000

/-- Chunk metadata stored next to each vector (class `ChunkMetadata` in
`vector_store.py`). -/
structure ChunkMetadata where
  document_id : String
  filename : String
  chunk_index : Nat
  content : String
  start_char : Nat
  end_char : Nat
deriving DecidableEq, Inhabited, Repr

/-- State of the FAISS-backed store (`VectorStore` in `vector_store.py`):
`vectors` models the rows held by the `faiss.IndexFlatIP` (the rows are stored
after `faiss.normalize_L2`, which rescales each row in place and changes
neither the number of rows nor their order, so the model takes the stored row
values as given), `metadata` models `self.metadata`, and `document_chunks`
models the insertion-ordered Python dict `self.document_chunks`. -/
structure VectorStore where
  dimension : Nat
  vectors : List (List Rat)
  metadata : List ChunkMetadata
  document_chunks : List (String × List Nat)
deriving Repr

/-- Errors raised by `add_embeddings`: the explicit `VectorStoreError` on a
length mismatch, and the shape assertion raised by the underlying
`faiss.IndexFlatIP.add` when a row's dimension differs from the index's
configured dimension (the external library raises before mutating the index,
and the Python code mutates `metadata`/`document_chunks` only after
`index.add` returns). -/
inductive VSError where
  | lengthMismatch
  | dimMismatch
deriving DecidableEq, Repr

/-- A freshly initialized store (`_initialize_new`). -/
def emptyStore (dimension : Nat) : VectorStore :=
  { dimension := dimension, vectors := [], metadata := [], document_chunks := [] }

/-- Lookup in the `document_chunks` dict (first entry with the given key). -/
def lookupDoc (d : String) : List (String × List Nat) → Option (List Nat)
  | [] => none
  | (k, ps) :: rest => if k = d then some ps else lookupDoc d rest

/-- Membership test `d in document_chunks`. -/
def memberDoc (d : String) (m : List (String × List Nat)) : Bool :=
  (lookupDoc d m).isSome

/-- Removal `del document_chunks[d]` (removes the entry with the given key). -/
def eraseDoc (d : String) : List (String × List Nat) → List (String × List Nat)
  | [] => []
  | (k, ps) :: rest => if k = d then rest else (k, ps) :: eraseDoc d rest

/-- The dict update performed per record in `add_embeddings` and in the
`delete_document` rebuild loop: create the key with an empty list if absent,
then append the position to its list.  A missing key is appended at the end,
matching Python dict insertion order. -/
def appendPos (d : String) (p : Nat) : List (String × List Nat) → List (String × List Nat)
  | [] => [(d, [p])]
  | (k, ps) :: rest => if k = d then (k, ps ++ [p]) :: rest else (k, ps) :: appendPos d p rest

/-- The metadata loop of `add_embeddings` (and of the `delete_document`
rebuild): starting at position `i`, append each record's position under its
`document_id`. -/
def updMapping : Nat → List ChunkMetadata → List (String × List Nat) → List (String × List Nat)
  | _, [], m => m
  | i, mt :: rest, m => updMapping (i + 1) rest (appendPos mt.document_id i m)

/-- `VectorStore.add_embeddings`.  Checks the length mismatch first
(`VectorStoreError`), returns unchanged on empty input, and rejects rows whose
dimension differs from the configured dimension (the shape assertion of the
underlying `faiss` add, raised before any state is mutated); otherwise appends
the rows and the metadata and updates the document mapping. -/
def addEmbeddings (s : VectorStore) (embeddings : List (List Rat))
    (chunks_metadata : List ChunkMetadata) : Except VSError VectorStore :=
  if embeddings.length ≠ chunks_metadata.length then
    .error .lengthMismatch
  else if embeddings = [] then
    .ok s
  else if embeddings.any (fun v => v.length ≠ s.dimension) then
    .error .dimMismatch
  else
    .ok { s with
          vectors := s.vectors ++ embeddings,
          metadata := s.metadata ++ chunks_metadata,
          document_chunks := updMapping s.metadata.length chunks_metadata s.document_chunks }

/-- `VectorStore.get_chunk_count`. -/
def getChunkCount (s : VectorStore) : Nat :=
  s.metadata.length

/-- `VectorStore.get_document_count`. -/
def getDocumentCount (s : VectorStore) : Nat :=
  s.document_chunks.length

/-- `VectorStore.get_document_chunk_count`: `len(document_chunks.get(id, []))`. -/
def getDocumentChunkCount (s : VectorStore) (document_id : String) : Nat :=
  ((lookupDoc document_id s.document_chunks).getD []).length

/-- The `(i, meta)` pairs surviving the `delete_document` loop: positions not
in `remove_indices = set(document_chunks[document_id])`. -/
def survivorPairs (s : VectorStore) (document_id : String) : List (Nat × ChunkMetadata) :=
  s.metadata.enum.filter
    (fun p => decide (p.1 ∉ (lookupDoc document_id s.document_chunks).getD []))

/-- The surviving metadata records (`new_metadata` in `delete_document`). -/
def survivors (s : VectorStore) (document_id : String) : List ChunkMetadata :=
  (survivorPairs s document_id).map (fun p => p.2)

/-- The surviving rows (`embeddings_to_keep`), each obtained by
`index.reconstruct(i)`, i.e. the row at position `i`. -/
def survivorVectors (s : VectorStore) (document_id : String) : List (List Rat) :=
  (survivorPairs s document_id).map (fun p => s.vectors.getD p.1 [])

/-- `VectorStore.delete_document`.  Returns `false` for an unknown document;
otherwise filters out the positions recorded for the document (keeping the
surviving metadata and the surviving rows in their original relative order),
rebuilds the mapping from the surviving records, deletes the document's key if
still present, and returns `true`. -/
def deleteDocument (s : VectorStore) (document_id : String) : Bool × VectorStore :=
  if memberDoc document_id s.document_chunks = false then
    (false, s)
  else
    let new_metadata := survivors s document_id
    let rebuilt := updMapping 0 new_metadata []
    let final := if memberDoc document_id rebuilt then eraseDoc document_id rebuilt else rebuilt
    (true, { s with
             vectors := survivorVectors s document_id,
             metadata := new_metadata,
             document_chunks := final })

/-- One mutating call on the store, as issued by a client: an
`add_embeddings` call or a `delete_document` call. -/
inductive StoreOp where
  | add (embeddings : List (List Rat)) (metas : List ChunkMetadata)
  | delete (document_id : String)

/-- Apply one call.  An `add_embeddings` call that raises leaves the state
unchanged (in the source both error paths raise before any mutation). -/
def applyOp (s : VectorStore) : StoreOp → VectorStore
  | .add es ms =>
      match addEmbeddings s es ms with
      | .ok s2 => s2
      | .error _ => s
  | .delete d => (deleteDocument s d).2

/-- Run a sequence of calls from a fresh empty store. -/
def runOps (dimension : Nat) (ops : List StoreOp) : VectorStore :=
  ops.foldl applyOp (emptyStore dimension)

/-! ## Invariant I1: the vector sequence and the metadata sequence stay in lockstep -/

theorem applyOp_preserves_I1 (s : VectorStore) (op : StoreOp)
    (h : s.vectors.length = s.metadata.length) :
    (applyOp s op).vectors.length = (applyOp s op).metadata.length := by
  cases op with
  | add es ms =>
    simp only [applyOp]
    cases hm : addEmbeddings s es ms with
    | error e => exact h
    | ok s2 =>
      unfold addEmbeddings at hm
      split at hm
      · cases hm
      · rename_i h1
        split at hm
        · cases hm; exact h
        · split at hm
          · cases hm
          · cases hm
            push_neg at h1
            simp [h, h1]
  | delete d =>
    by_cases h1 : memberDoc d s.document_chunks = false
    · simp [applyOp, deleteDocument, h1, h]
    · simp [applyOp, deleteDocument, survivors, survivorVectors, h1, h]

theorem foldl_applyOp_preserves (P : VectorStore → Prop)
    (hstep : ∀ s op, P s → P (applyOp s op)) :
    ∀ (ops : List StoreOp) (s : VectorStore), P s → P (ops.foldl applyOp s) := by
  intro ops
  induction ops with
  | nil => intro s hs; exact hs
  | cons op rest ih => intro s hs; exact ih (applyOp s op) (hstep s op hs)

/-- C1: Invariant I1 — after any sequence of `add_embeddings` / `delete_document`
calls starting from an empty `VectorStore`, the number of vectors held by the
index equals the length of the metadata list. -/
theorem C1_invariant_I1 (dimension : Nat) (ops : List StoreOp) :
    (runOps dimension ops).vectors.length = (runOps dimension ops).metadata.length :=
  foldl_applyOp_preserves (fun s => s.vectors.length = s.metadata.length)
    applyOp_preserves_I1 ops (emptyStore dimension) rfl

/-! ## Invariant I2: the document→positions mapping and the metadata agree -/

/-- Soundness half of invariant I2: every position stored in the mapping under
key `d` refers to a live record whose `document_id` is `d`. -/
def MapSound (m : List (String × List Nat)) (metas : List ChunkMetadata) : Prop :=
  ∀ d ps, lookupDoc d m = some ps →
    ∀ p ∈ ps, ∃ mt, metas[p]? = some mt ∧ mt.document_id = d

/-- Completeness half of invariant I2: every live record's position appears in
the mapping under the record's own `document_id`. -/
def MapComplete (m : List (String × List Nat)) (metas : List ChunkMetadata) : Prop :=
  ∀ p mt, metas[p]? = some mt →
    ∃ ps, lookupDoc mt.document_id m = some ps ∧ p ∈ ps

/-- No key of the mapping holds an empty position list (keys are only ever
created when a first position is appended under them). -/
def MapNoEmpty (m : List (String × List Nat)) : Prop :=
  ∀ d ps, lookupDoc d m = some ps → ps ≠ []

/-- The key list of the mapping. -/
def docKeys (m : List (String × List Nat)) : List String :=
  m.map (fun e => e.1)

/-- Keys of the mapping are distinct, as in a Python dict. -/
def KeysNodup (m : List (String × List Nat)) : Prop :=
  (docKeys m).Nodup

/-- All bookkeeping invariants of a store state together. -/
def StoreInv (s : VectorStore) : Prop :=
  KeysNodup s.document_chunks ∧ MapSound s.document_chunks s.metadata ∧
    MapComplete s.document_chunks s.metadata ∧ MapNoEmpty s.document_chunks

theorem lookupDoc_appendPos_same (d : String) (p : Nat) (m : List (String × List Nat)) :
    lookupDoc d (appendPos d p m) = some (((lookupDoc d m).getD []) ++ [p]) := by
  induction m with
  | nil => simp [appendPos, lookupDoc]
  | cons e rest ih =>
    obtain ⟨k, ps⟩ := e
    by_cases hk : k = d
    · simp [appendPos, lookupDoc, hk]
    · simp [appendPos, lookupDoc, hk, ih]

theorem lookupDoc_appendPos_ne (d d2 : String) (p : Nat) (m : List (String × List Nat))
    (hne : d2 ≠ d) : lookupDoc d2 (appendPos d p m) = lookupDoc d2 m := by
  have hdd : ¬d = d2 := fun h => hne h.symm
  induction m with
  | nil => simp [appendPos, lookupDoc, hdd]
  | cons e rest ih =>
    obtain ⟨k, ps⟩ := e
    by_cases hk : k = d
    · subst hk
      simp [appendPos, lookupDoc, hdd]
    · by_cases hk2 : k = d2
      · subst hk2
        simp [appendPos, lookupDoc, hk]
      · simp [appendPos, lookupDoc, hk, hk2, ih]

theorem mem_docKeys_appendPos (x d : String) (p : Nat) (m : List (String × List Nat)) :
    x ∈ docKeys (appendPos d p m) → x ∈ docKeys m ∨ x = d := by
  induction m with
  | nil =>
    intro hx
    simp [appendPos, docKeys] at hx
    exact Or.inr hx
  | cons e rest ih =>
    obtain ⟨k, ps⟩ := e
    by_cases hk : k = d
    · intro hx
      simp only [appendPos, if_pos hk, docKeys, List.map_cons] at hx ⊢
      exact Or.inl hx
    · intro hx
      simp only [appendPos, if_neg hk, docKeys, List.map_cons] at hx ⊢
      rcases List.mem_cons.mp hx with h1 | h1
      · exact Or.inl (List.mem_cons.mpr (Or.inl h1))
      · rcases ih h1 with h2 | h2
        · exact Or.inl (List.mem_cons.mpr (Or.inr h2))
        · exact Or.inr h2

theorem keysNodup_appendPos (d : String) (p : Nat) (m : List (String × List Nat))
    (h : KeysNodup m) : KeysNodup (appendPos d p m) := by
  induction m with
  | nil => simp [KeysNodup, appendPos, docKeys]
  | cons e rest ih =>
    obtain ⟨k, ps⟩ := e
    unfold KeysNodup docKeys at h
    rw [List.map_cons, List.nodup_cons] at h
    by_cases hk : k = d
    · unfold KeysNodup docKeys
      simp only [appendPos, if_pos hk, List.map_cons, List.nodup_cons]
      exact ⟨h.1, h.2⟩
    · unfold KeysNodup docKeys
      simp only [appendPos, if_neg hk, List.map_cons, List.nodup_cons]
      constructor
      · intro hmem
        rcases mem_docKeys_appendPos k d p rest hmem with h2 | h2
        · exact h.1 h2
        · exact hk h2
      · exact ih h.2

theorem lookupDoc_updMapping_not_mem (d : String) (metas : List ChunkMetadata)
    (h : ∀ mt ∈ metas, mt.document_id ≠ d) :
    ∀ (i : Nat) (m : List (String × List Nat)),
      lookupDoc d (updMapping i metas m) = lookupDoc d m := by
  induction metas with
  | nil => intro i m; rfl
  | cons mt rest ih =>
    intro i m
    have hmt : mt.document_id ≠ d := h mt (List.mem_cons_self mt rest)
    rw [updMapping, ih (fun mt2 hmt2 => h mt2 (List.mem_cons_of_mem mt hmt2)),
      lookupDoc_appendPos_ne _ _ _ _ (fun hdd => hmt hdd.symm)]

theorem appendPos_step_sound (metas : List ChunkMetadata) (mt : ChunkMetadata)
    (m : List (String × List Nat)) (hs : MapSound m metas) :
    MapSound (appendPos mt.document_id metas.length m) (metas ++ [mt]) := by
  intro d ps hlook p hp
  by_cases hd : d = mt.document_id
  · subst hd
    rw [lookupDoc_appendPos_same] at hlook
    cases hlook
    rcases List.mem_append.mp hp with hp1 | hp1
    · cases hm : lookupDoc mt.document_id m with
      | none => rw [hm] at hp1; simp at hp1
      | some old =>
        rw [hm] at hp1
        simp only [Option.getD_some] at hp1
        obtain ⟨mt2, hget, hdoc⟩ := hs _ _ hm p hp1
        have hlt : p < metas.length := (List.getElem?_eq_some_iff.mp hget).1
        exact ⟨mt2, by rw [List.getElem?_append_left hlt]; exact hget, hdoc⟩
    · simp only [List.mem_singleton] at hp1
      subst hp1
      exact ⟨mt, List.getElem?_concat_length metas mt, rfl⟩
  · rw [lookupDoc_appendPos_ne _ _ _ _ hd] at hlook
    obtain ⟨mt2, hget, hdoc⟩ := hs d ps hlook p hp
    have hlt : p < metas.length := (List.getElem?_eq_some_iff.mp hget).1
    exact ⟨mt2, by rw [List.getElem?_append_left hlt]; exact hget, hdoc⟩

theorem appendPos_step_complete (metas : List ChunkMetadata) (mt : ChunkMetadata)
    (m : List (String × List Nat)) (hc : MapComplete m metas) :
    MapComplete (appendPos mt.document_id metas.length m) (metas ++ [mt]) := by
  intro p mt2 hget
  by_cases hlt : p < metas.length
  · rw [List.getElem?_append_left hlt] at hget
    obtain ⟨ps, hlook, hmem⟩ := hc p mt2 hget
    by_cases hd : mt2.document_id = mt.document_id
    · refine ⟨ps ++ [metas.length], ?_, List.mem_append.mpr (Or.inl hmem)⟩
      rw [hd, lookupDoc_appendPos_same, ← hd, hlook]
      rfl
    · rw [lookupDoc_appendPos_ne _ _ _ _ hd]
      exact ⟨ps, hlook, hmem⟩
  · have hlen : p < (metas ++ [mt]).length := (List.getElem?_eq_some_iff.mp hget).1
    rw [List.length_append, List.length_singleton] at hlen
    have hp : p = metas.length := by omega
    subst hp
    rw [List.getElem?_concat_length] at hget
    cases hget
    refine ⟨((lookupDoc mt.document_id m).getD []) ++ [metas.length],
      lookupDoc_appendPos_same _ _ _, List.mem_append.mpr (Or.inr ?_)⟩
    simp

theorem updMapping_sound_complete (new : List ChunkMetadata) :
    ∀ (metas : List ChunkMetadata) (m : List (String × List Nat)),
      MapSound m metas → MapComplete m metas →
      MapSound (updMapping metas.length new m) (metas ++ new) ∧
        MapComplete (updMapping metas.length new m) (metas ++ new) := by
  induction new with
  | nil => intro metas m hs hc; simpa [updMapping] using ⟨hs, hc⟩
  | cons mt rest ih =>
    intro metas m hs hc
    have hstep := ih (metas ++ [mt]) (appendPos mt.document_id metas.length m)
      (appendPos_step_sound metas mt m hs) (appendPos_step_complete metas mt m hc)
    rw [List.length_append, List.length_singleton, List.append_assoc] at hstep
    simpa [updMapping] using hstep

theorem mapNoEmpty_appendPos (d : String) (p : Nat) (m : List (String × List Nat))
    (h : MapNoEmpty m) : MapNoEmpty (appendPos d p m) := by
  intro d2 ps hlook
  by_cases hd : d2 = d
  · subst hd
    rw [lookupDoc_appendPos_same] at hlook
    cases hlook
    simp
  · rw [lookupDoc_appendPos_ne _ _ _ _ hd] at hlook
    exact h d2 ps hlook

theorem keysNodup_updMapping (metas : List ChunkMetadata) :
    ∀ (i : Nat) (m : List (String × List Nat)), KeysNodup m → KeysNodup (updMapping i metas m) := by
  induction metas with
  | nil => intro i m h; exact h
  | cons mt rest ih =>
    intro i m h
    exact ih (i + 1) _ (keysNodup_appendPos mt.document_id i m h)

theorem mapNoEmpty_updMapping (metas : List ChunkMetadata) :
    ∀ (i : Nat) (m : List (String × List Nat)), MapNoEmpty m → MapNoEmpty (updMapping i metas m) := by
  induction metas with
  | nil => intro i m h; exact h
  | cons mt rest ih =>
    intro i m h
    exact ih (i + 1) _ (mapNoEmpty_appendPos mt.document_id i m h)

/-- Derived from invariant I2: any record surviving the `delete_document`
filter has a `document_id` different from the deleted one. -/
theorem surviving_doc_ne (s : VectorStore) (document_id : String) (hinv : StoreInv s) :
    ∀ mt ∈ survivors s document_id, mt.document_id ≠ document_id := by
  unfold survivors survivorPairs
  obtain ⟨-, -, hc, -⟩ := hinv
  intro mt hmt hdd
  obtain ⟨pair, hpair, hsnd⟩ := List.mem_map.mp hmt
  obtain ⟨i, mt2⟩ := pair
  simp only at hsnd
  subst hsnd
  obtain ⟨henum, hfilt⟩ := List.mem_filter.mp hpair
  have hget : s.metadata[i]? = some mt2 := List.mk_mem_enum_iff_getElem?.mp henum
  obtain ⟨ps, hlook, hmemi⟩ := hc i mt2 hget
  rw [hdd] at hlook
  have : i ∈ (lookupDoc document_id s.document_chunks).getD [] := by
    rw [hlook]; exact hmemi
  simp only [decide_eq_true_eq] at hfilt
  exact hfilt this

theorem applyOp_preserves_inv (s : VectorStore) (op : StoreOp) (h : StoreInv s) :
    StoreInv (applyOp s op) := by
  obtain ⟨hnd, hs, hc, hne⟩ := h
  cases op with
  | add es ms =>
    simp only [applyOp]
    cases hm : addEmbeddings s es ms with
    | error e => exact ⟨hnd, hs, hc, hne⟩
    | ok s2 =>
      unfold addEmbeddings at hm
      split at hm
      · cases hm
      · split at hm
        · cases hm; exact ⟨hnd, hs, hc, hne⟩
        · split at hm
          · cases hm
          · cases hm
            obtain ⟨hs2, hc2⟩ := updMapping_sound_complete ms s.metadata s.document_chunks hs hc
            exact ⟨keysNodup_updMapping ms _ _ hnd, hs2, hc2, mapNoEmpty_updMapping ms _ _ hne⟩
  | delete d =>
    cases hmm : memberDoc d s.document_chunks with
    | false =>
      simp only [applyOp, deleteDocument, hmm, if_pos]
      exact ⟨hnd, hs, hc, hne⟩
    | true =>
      have hsurv := surviving_doc_ne s d ⟨hnd, hs, hc, hne⟩
      have hbase : MapSound ([] : List (String × List Nat)) ([] : List ChunkMetadata) := by
        intro d2 ps hlook; cases hlook
      have hbase2 : MapComplete ([] : List (String × List Nat)) ([] : List ChunkMetadata) := by
        intro p mt hget; simp at hget
      obtain ⟨hs2, hc2⟩ := updMapping_sound_complete (survivors s d) [] [] hbase hbase2
      have hnomem : memberDoc d (updMapping 0 (survivors s d) []) = false := by
        unfold memberDoc
        rw [lookupDoc_updMapping_not_mem d (survivors s d) hsurv 0 []]
        rfl
      have hnd2 : KeysNodup (updMapping 0 (survivors s d) []) :=
        keysNodup_updMapping (survivors s d) 0 [] (by simp [KeysNodup, docKeys])
      have hne2 : MapNoEmpty (updMapping 0 (survivors s d) []) :=
        mapNoEmpty_updMapping (survivors s d) 0 [] (by intro d2 ps hlook; cases hlook)
      simp only [List.nil_append] at hs2 hc2
      simp only [applyOp, deleteDocument]
      rw [hmm]
      rw [if_neg (by decide)]
      rw [if_neg (by rw [hnomem]; exact fun hcon => by cases hcon)]
      exact ⟨hnd2, hs2, hc2, hne2⟩

theorem storeInv_empty (dimension : Nat) : StoreInv (emptyStore dimension) := by
  refine ⟨by simp [KeysNodup, docKeys, emptyStore], ?_, ?_, ?_⟩
  · intro d ps hlook; cases hlook
  · intro p mt hget; simp [emptyStore] at hget
  · intro d ps hlook; cases hlook

theorem runOps_inv (dimension : Nat) (ops : List StoreOp) : StoreInv (runOps dimension ops) :=
  foldl_applyOp_preserves StoreInv applyOp_preserves_inv ops (emptyStore dimension)
    (storeInv_empty dimension)

/-- C2: Invariant I2 — after any sequence of `add_embeddings` /
`delete_document` calls starting from an empty `VectorStore`, every position
listed in `document_chunks` under a key `d` refers to a live metadata record
whose `document_id` is `d`, and conversely every record's position appears in
the mapping under its own `document_id`. -/
theorem C2_invariant_I2 (dimension : Nat) (ops : List StoreOp) :
    MapSound (runOps dimension ops).document_chunks (runOps dimension ops).metadata ∧
      MapComplete (runOps dimension ops).document_chunks (runOps dimension ops).metadata :=
  ⟨(runOps_inv dimension ops).2.1, (runOps_inv dimension ops).2.2.1⟩

/-! ## delete_document: functional correctness (claim C3) -/

theorem memberDoc_iff_exists (s : VectorStore) (d : String) (hinv : StoreInv s) :
    memberDoc d s.document_chunks = true ↔ ∃ mt ∈ s.metadata, mt.document_id = d := by
  obtain ⟨-, hs, hc, hne⟩ := hinv
  constructor
  · intro hmem
    unfold memberDoc at hmem
    cases hlook : lookupDoc d s.document_chunks with
    | none => rw [hlook] at hmem; cases hmem
    | some ps =>
      have hps := hne d ps hlook
      obtain ⟨p, hp⟩ := List.exists_mem_of_ne_nil ps hps
      obtain ⟨mt, hget, hdoc⟩ := hs d ps hlook p hp
      exact ⟨mt, List.getElem?_mem hget, hdoc⟩
  · rintro ⟨mt, hmt, hdoc⟩
    obtain ⟨i, hi, hget⟩ := List.getElem_of_mem hmt
    have hgetq : s.metadata[i]? = some mt := by
      rw [List.getElem?_eq_getElem hi, hget]
    obtain ⟨ps, hlook, hmemi⟩ := hc i mt hgetq
    unfold memberDoc
    rw [hdoc] at hlook
    rw [hlook]
    rfl

theorem enumFrom_filter_map (P : Nat → Bool) (Q : ChunkMetadata → Bool) :
    ∀ (metas : List ChunkMetadata) (k : Nat),
      (∀ j mt, metas[j]? = some mt → P (k + j) = Q mt) →
      ((List.enumFrom k metas).filter (fun p => P p.1)).map (fun p => p.2) = metas.filter Q := by
  intro metas
  induction metas with
  | nil => intro k h; rfl
  | cons mt rest ih =>
    intro k h
    have h0 : P k = Q mt := by simpa using h 0 mt (by simp)
    have hrest : ∀ j mt2, rest[j]? = some mt2 → P (k + 1 + j) = Q mt2 := by
      intro j mt2 hj
      have hh := h (j + 1) mt2 (by simpa using hj)
      have harith : k + (j + 1) = k + 1 + j := by omega
      rw [harith] at hh
      exact hh
    simp only [List.enumFrom]
    rw [List.filter_cons, List.filter_cons]
    cases hq : Q mt with
    | false =>
      rw [hq] at h0
      simp only [h0, hq, if_neg, Bool.false_eq_true, if_false]
      exact ih (k + 1) hrest
    | true =>
      rw [hq] at h0
      simp only [h0, hq, if_pos, if_true, List.map_cons]
      rw [ih (k + 1) hrest]

theorem survivors_eq_filter (s : VectorStore) (d : String) (hinv : StoreInv s) :
    survivors s d = s.metadata.filter (fun mt => decide (mt.document_id ≠ d)) := by
  obtain ⟨-, hs, hc, -⟩ := hinv
  unfold survivors survivorPairs
  have henum : s.metadata.enum = List.enumFrom 0 s.metadata := rfl
  rw [henum]
  refine enumFrom_filter_map (fun i => decide (i ∉ (lookupDoc d s.document_chunks).getD []))
    (fun mt => decide (mt.document_id ≠ d)) s.metadata 0 ?_
  intro j mt hj
  rw [decide_eq_decide]
  simp only [Nat.zero_add]
  constructor
  · intro hnotin hdoc
    obtain ⟨ps, hlook, hmemi⟩ := hc j mt hj
    rw [hdoc] at hlook
    rw [hlook] at hnotin
    exact hnotin (by simpa using hmemi)
  · intro hdoc hjin
    cases hlook : lookupDoc d s.document_chunks with
    | none => rw [hlook] at hjin; simp at hjin
    | some ps =>
      rw [hlook] at hjin
      simp only [Option.getD_some] at hjin
      obtain ⟨mt2, hget2, hdoc2⟩ := hs d ps hlook j hjin
      rw [hj] at hget2
      cases hget2
      exact hdoc hdoc2

theorem deleteDocument_spec (s : VectorStore) (X : String) (hinv : StoreInv s) :
    ((deleteDocument s X).1 = true ↔ ∃ mt ∈ s.metadata, mt.document_id = X) ∧
      (deleteDocument (deleteDocument s X).2 X).1 = false ∧
      getDocumentChunkCount (deleteDocument s X).2 X = 0 ∧
      (deleteDocument s X).2.metadata =
        s.metadata.filter (fun mt => decide (mt.document_id ≠ X)) := by
  cases hmm : memberDoc X s.document_chunks with
  | false =>
    have hres : deleteDocument s X = (false, s) := by
      unfold deleteDocument
      rw [hmm]
      simp
    have hno : ¬∃ mt ∈ s.metadata, mt.document_id = X := by
      intro hex
      have := (memberDoc_iff_exists s X hinv).mpr hex
      rw [hmm] at this
      cases this
    have hlooknone : lookupDoc X s.document_chunks = none := by
      unfold memberDoc at hmm
      cases hlook : lookupDoc X s.document_chunks with
      | none => rfl
      | some ps => rw [hlook] at hmm; cases hmm
    refine ⟨?_, ?_, ?_, ?_⟩
    · rw [hres]
      constructor
      · intro hcon; cases hcon
      · intro hex; exact absurd hex hno
    · rw [hres]
      show (deleteDocument s X).1 = false
      rw [hres]
    · rw [hres]
      show getDocumentChunkCount s X = 0
      unfold getDocumentChunkCount
      rw [hlooknone]
      rfl
    · rw [hres]
      show s.metadata = _
      symm
      apply List.filter_eq_self.mpr
      intro mt hmt
      simp only [decide_eq_true_eq]
      intro hdoc
      exact hno ⟨mt, hmt, hdoc⟩
  | true =>
    have hsurv := surviving_doc_ne s X hinv
    have hnomem : memberDoc X (updMapping 0 (survivors s X) []) = false := by
      unfold memberDoc
      rw [lookupDoc_updMapping_not_mem X (survivors s X) hsurv 0 []]
      rfl
    have hlookrebuilt : lookupDoc X (updMapping 0 (survivors s X) []) = none := by
      rw [lookupDoc_updMapping_not_mem X (survivors s X) hsurv 0 []]
      rfl
    have hres : deleteDocument s X =
        (true, { s with
                 vectors := survivorVectors s X,
                 metadata := survivors s X,
                 document_chunks := updMapping 0 (survivors s X) [] }) := by
      unfold deleteDocument
      rw [hmm]
      simp [hnomem]
    refine ⟨?_, ?_, ?_, ?_⟩
    · rw [hres]
      constructor
      · intro _; exact (memberDoc_iff_exists s X hinv).mp hmm
      · intro _; rfl
    · rw [hres]
      unfold deleteDocument
      have hproj : ({ s with
          vectors := survivorVectors s X,
          metadata := survivors s X,
          document_chunks := updMapping 0 (survivors s X) [] } : VectorStore).document_chunks =
          updMapping 0 (survivors s X) [] := rfl
      rw [hproj, hnomem]
      rfl
    · rw [hres]
      show getDocumentChunkCount _ X = 0
      unfold getDocumentChunkCount
      have hproj : ({ s with
          vectors := survivorVectors s X,
          metadata := survivors s X,
          document_chunks := updMapping 0 (survivors s X) [] } : VectorStore).document_chunks =
          updMapping 0 (survivors s X) [] := rfl
      rw [hproj, hlookrebuilt]
      rfl
    · rw [hres]
      exact survivors_eq_filter s X hinv

/-- C3: `delete_document(X)` returns `false` exactly when no record of `X` is
stored (so a second delete right after a successful one returns `false`);
after any delete `get_document_chunk_count(X)` is `0`, and the surviving
metadata list is exactly the original one with the records owned by `X`
filtered out — other records keep their content and relative order. -/
theorem C3_delete_document (dimension : Nat) (ops : List StoreOp) (X : String) :
    ((deleteDocument (runOps dimension ops) X).1 = true ↔
        ∃ mt ∈ (runOps dimension ops).metadata, mt.document_id = X) ∧
      (deleteDocument (deleteDocument (runOps dimension ops) X).2 X).1 = false ∧
      getDocumentChunkCount (deleteDocument (runOps dimension ops) X).2 X = 0 ∧
      (deleteDocument (runOps dimension ops) X).2.metadata =
        (runOps dimension ops).metadata.filter (fun mt => decide (mt.document_id ≠ X)) :=
  deleteDocument_spec (runOps dimension ops) X (runOps_inv dimension ops)

/-! ## search: candidate generation and the result loop -/

/-- Number of vectors held by the index (`self.index.ntotal`). -/
def ntotal (s : VectorStore) : Nat :=
  s.vectors.length

/-- Python truthiness of the `document_ids: Optional[List[str]]` argument:
`None` and the empty list are falsy. -/
def truthy (docIds : Option (List String)) : Bool :=
  match docIds with
  | none => false
  | some ids => !ids.isEmpty

/-- Inner product of two vectors. -/
def dotProduct (a b : List Rat) : Rat :=
  (List.zipWith (fun x y => x * y) a b).sum

/-- Score of every stored row against the query. -/
def candidateScores (s : VectorStore) (q : List Rat) : List (Nat × Rat) :=
  (List.range (ntotal s)).map (fun i => (i, dotProduct q (s.vectors.getD i [])))

/-- Candidate order: non-increasing score. -/
def scoreGE (a b : Nat × Rat) : Prop :=
  b.2 ≤ a.2

instance : DecidableRel scoreGE :=
  fun a b => inferInstanceAs (Decidable (b.2 ≤ a.2))

instance : IsTotal (Nat × Rat) scoreGE :=
  ⟨fun a b => le_total b.2 a.2⟩

instance : IsTrans (Nat × Rat) scoreGE :=
  ⟨fun _ _ _ h1 h2 => le_trans h2 h1⟩

/-- Modelled behaviour of the external `faiss.IndexFlatIP.search` on the
stored rows: the `k` positions with the highest inner product against the
query, in non-increasing score order.  (The call sites always pass
`k ≤ ntotal`, so the `-1` padding entries the library would emit for
`k > ntotal` never occur.) -/
def faissSearch (s : VectorStore) (q : List Rat) (k : Nat) : List (Nat × Rat) :=
  (List.insertionSort scoreGE (candidateScores s q)).take k

/-- The candidate pool size `search_k`: a widened pool when a truthy
document-id filter is present. -/
def searchK (s : VectorStore) (docIds : Option (List String)) (top_k : Nat) : Nat :=
  if truthy docIds then min (top_k * 3) (ntotal s) else min top_k (ntotal s)

/-- The result-collection loop of `VectorStore.search`: skip candidates
filtered out by `document_ids`, skip candidates under the similarity
threshold, append the rest, and stop once `top_k` results are collected. -/
def searchLoop (md : List ChunkMetadata) (docIds : Option (List String)) (thr : Rat)
    (top_k : Nat) : List (Nat × Rat) → List (ChunkMetadata × Rat) → List (ChunkMetadata × Rat)
  | [], results => results
  | (idx, dist) :: rest, results =>
    let mt := md.getD idx default
    if truthy docIds = true ∧ mt.document_id ∉ docIds.getD [] then
      searchLoop md docIds thr top_k rest results
    else if dist < thr then
      searchLoop md docIds thr top_k rest results
    else
      let results2 := results ++ [(mt, dist)]
      if top_k ≤ results2.length then results2
      else searchLoop md docIds thr top_k rest results2

/-- `VectorStore.search`: empty result on an empty index, otherwise run the
collection loop over the `search_k` best candidates. -/
def search (s : VectorStore) (query_embedding : List Rat) (top_k : Nat)
    (document_ids : Option (List String)) (similarity_threshold : Rat) :
    List (ChunkMetadata × Rat) :=
  if ntotal s = 0 then []
  else
    searchLoop s.metadata document_ids similarity_threshold top_k
      (faissSearch s query_embedding (searchK s document_ids top_k)) []

theorem searchLoop_spec (md : List ChunkMetadata) (docIds : Option (List String)) (thr : Rat)
    (top_k : Nat) :
    ∀ (cands : List (Nat × Rat)) (acc : List (ChunkMetadata × Rat)),
      ∃ sub : List (Nat × Rat), sub.Sublist cands ∧
        searchLoop md docIds thr top_k cands acc =
          acc ++ sub.map (fun p => (md.getD p.1 default, p.2)) ∧
        (∀ p ∈ sub, thr ≤ p.2) ∧
        (truthy docIds = true → ∀ p ∈ sub, (md.getD p.1 default).document_id ∈ docIds.getD []) := by
  intro cands
  induction cands with
  | nil =>
    intro acc
    exact ⟨[], List.nil_sublist [], by simp [searchLoop], by simp, by simp⟩
  | cons c rest ih =>
    intro acc
    obtain ⟨idx, dist⟩ := c
    by_cases c1 : truthy docIds = true ∧ (md.getD idx default).document_id ∉ docIds.getD []
    · obtain ⟨sub, hsub, heq, hthr, hfilt⟩ := ih acc
      refine ⟨sub, hsub.cons (idx, dist), ?_, hthr, hfilt⟩
      rw [← heq]
      simp only [searchLoop]
      rw [if_pos c1]
    · by_cases c2 : dist < thr
      · obtain ⟨sub, hsub, heq, hthr, hfilt⟩ := ih acc
        refine ⟨sub, hsub.cons (idx, dist), ?_, hthr, hfilt⟩
        rw [← heq]
        simp only [searchLoop]
        rw [if_neg c1, if_pos c2]
      · by_cases c3 : top_k ≤ (acc ++ [(md.getD idx default, dist)]).length
        · refine ⟨[(idx, dist)], (List.nil_sublist rest).cons₂ (idx, dist), ?_, ?_, ?_⟩
          · simp only [searchLoop]
            rw [if_neg c1, if_neg c2, if_pos c3]
            simp
          · intro p hp
            rw [List.mem_singleton] at hp
            subst hp
            exact le_of_not_lt c2
          · intro htr p hp
            rw [List.mem_singleton] at hp
            subst hp
            rcases not_and_or.mp c1 with hcon | hcon
            · exact absurd htr hcon
            · exact not_not.mp hcon
        · obtain ⟨sub, hsub, heq, hthr, hfilt⟩ := ih (acc ++ [(md.getD idx default, dist)])
          refine ⟨(idx, dist) :: sub, hsub.cons₂ (idx, dist), ?_, ?_, ?_⟩
          · simp only [searchLoop]
            rw [if_neg c1, if_neg c2, if_neg c3, heq]
            simp
          · intro p hp
            rcases List.mem_cons.mp hp with hp1 | hp1
            · subst hp1
              exact le_of_not_lt c2
            · exact hthr p hp1
          · intro htr p hp
            rcases List.mem_cons.mp hp with hp1 | hp1
            · subst hp1
              rcases not_and_or.mp c1 with hcon | hcon
              · exact absurd htr hcon
              · exact not_not.mp hcon
            · exact hfilt htr p hp1

theorem searchLoop_length (md : List ChunkMetadata) (docIds : Option (List String)) (thr : Rat)
    (top_k : Nat) :
    ∀ (cands : List (Nat × Rat)) (acc : List (ChunkMetadata × Rat)),
      acc.length < top_k → (searchLoop md docIds thr top_k cands acc).length ≤ top_k := by
  intro cands
  induction cands with
  | nil =>
    intro acc hacc
    simpa [searchLoop] using Nat.le_of_lt hacc
  | cons c rest ih =>
    intro acc hacc
    obtain ⟨idx, dist⟩ := c
    by_cases c1 : truthy docIds = true ∧ (md.getD idx default).document_id ∉ docIds.getD []
    · simp only [searchLoop]
      rw [if_pos c1]
      exact ih acc hacc
    · by_cases c2 : dist < thr
      · simp only [searchLoop]
        rw [if_neg c1, if_pos c2]
        exact ih acc hacc
      · by_cases c3 : top_k ≤ (acc ++ [(md.getD idx default, dist)]).length
        · simp only [searchLoop]
          rw [if_neg c1, if_neg c2, if_pos c3]
          rw [List.length_append, List.length_singleton]
          omega
        · simp only [searchLoop]
          rw [if_neg c1, if_neg c2, if_neg c3]
          refine ih _ ?_
          rw [List.length_append, List.length_singleton] at c3 ⊢
          omega

/-- C4: `search` returns `[]` on an empty index; otherwise at most `top_k`
pairs, with non-increasing scores, every score at or above the similarity
threshold, and — when a non-empty document-id filter is given — only records
of the filtered documents. -/
theorem C4_search (s : VectorStore) (q : List Rat) (top_k : Nat)
    (docIds : Option (List String)) (thr : Rat) :
    (ntotal s = 0 → search s q top_k docIds thr = []) ∧
      (search s q top_k docIds thr).length ≤ top_k ∧
      List.Sorted (fun a b : Rat => b ≤ a) ((search s q top_k docIds thr).map (fun p => p.2)) ∧
      (∀ p ∈ search s q top_k docIds thr, thr ≤ p.2) ∧
      (∀ ids, docIds = some ids → ids ≠ [] →
        ∀ p ∈ search s q top_k docIds thr, p.1.document_id ∈ ids) := by
  by_cases hz : ntotal s = 0
  · have hres : search s q top_k docIds thr = [] := by
      unfold search
      rw [if_pos hz]
    rw [hres]
    refine ⟨fun _ => rfl, by simp, by simp, by simp, by simp⟩
  · have hres : search s q top_k docIds thr =
        searchLoop s.metadata docIds thr top_k
          (faissSearch s q (searchK s docIds top_k)) [] := by
      unfold search
      rw [if_neg hz]
    obtain ⟨sub, hsub, heq, hthr, hfilt⟩ :=
      searchLoop_spec s.metadata docIds thr top_k (faissSearch s q (searchK s docIds top_k)) []
    rw [List.nil_append] at heq
    have hcands : List.Pairwise scoreGE (faissSearch s q (searchK s docIds top_k)) :=
      List.Pairwise.sublist (List.take_sublist _ _)
        (List.sorted_insertionSort scoreGE (candidateScores s q))
    have hsubpw : List.Pairwise scoreGE sub := hcands.sublist hsub
    refine ⟨fun h0 => absurd h0 hz, ?_, ?_, ?_, ?_⟩
    · rcases Nat.eq_zero_or_pos top_k with h0 | hpos
      · subst h0
        have hk : searchK s docIds 0 = 0 := by
          simp [searchK]
        rw [hres, hk]
        simp [faissSearch, searchLoop]
      · rw [hres]
        exact searchLoop_length s.metadata docIds thr top_k _ [] (by simpa using hpos)
    · rw [hres, heq, List.map_map]
      exact List.pairwise_map.mpr hsubpw
    · rw [hres, heq]
      intro p hp
      obtain ⟨x, hx, hxeq⟩ := List.mem_map.mp hp
      subst hxeq
      exact hthr x hx
    · intro ids hids hne p hp
      have htr : truthy docIds = true := by
        rw [hids]
        unfold truthy
        simpa using hne
      rw [hres, heq] at hp
      obtain ⟨x, hx, hxeq⟩ := List.mem_map.mp hp
      subst hxeq
      have := hfilt htr x hx
      rw [hids] at this
      simpa using this

/-! ## search with an empty document_ids list (claim C9) -/

theorem searchLoop_some_nil (md : List ChunkMetadata) (thr : Rat) (top_k : Nat) :
    ∀ (cands : List (Nat × Rat)) (acc : List (ChunkMetadata × Rat)),
      searchLoop md (some []) thr top_k cands acc = searchLoop md none thr top_k cands acc := by
  intro cands
  induction cands with
  | nil => intro acc; rfl
  | cons c rest ih =>
    intro acc
    obtain ⟨idx, dist⟩ := c
    simp only [searchLoop]
    have h1 : ¬(truthy (some ([] : List String)) = true ∧
        (md.getD idx default).document_id ∉ (some ([] : List String)).getD []) := by
      simp [truthy]
    have h2 : ¬(truthy (none : Option (List String)) = true ∧
        (md.getD idx default).document_id ∉ (none : Option (List String)).getD []) := by
      simp [truthy]
    rw [if_neg h1, if_neg h2]
    by_cases c2 : dist < thr
    · rw [if_pos c2, if_pos c2, ih]
    · rw [if_neg c2, if_neg c2]
      by_cases c3 : top_k ≤ (acc ++ [(md.getD idx default, dist)]).length
      · rw [if_pos c3, if_pos c3]
      · rw [if_neg c3, if_neg c3, ih]

/-- C9: passing `document_ids = []` behaves exactly like passing no filter:
the candidate pool is `min(top_k, ntotal)` (not the widened `top_k * 3`
pool), and no candidate is excluded by document-id filtering — the full
search result coincides with the unfiltered one. -/
theorem C9_empty_document_ids (s : VectorStore) (q : List Rat) (top_k : Nat) (thr : Rat) :
    search s q top_k (some []) thr = search s q top_k none thr ∧
      searchK s (some []) top_k = min top_k (ntotal s) ∧
      searchK s (some []) top_k = searchK s none top_k := by
  have hk : searchK s (some []) top_k = searchK s none top_k := by
    simp [searchK, truthy]
  refine ⟨?_, by simp [searchK, truthy], hk⟩
  unfold search
  by_cases hz : ntotal s = 0
  · rw [if_pos hz, if_pos hz]
  · rw [if_neg hz, if_neg hz, hk, searchLoop_some_nil]

/-! ## Concrete data used by the witnesses -/

/-- A sample record of document "A". -/
def mtA : ChunkMetadata :=
  { document_id := "A", filename := "a.txt", chunk_index := 0,
    content := "alpha", start_char := 0, end_char := 5 }

/-- A second sample record of document "A". -/
def mtA2 : ChunkMetadata :=
  { document_id := "A", filename := "a.txt", chunk_index := 1,
    content := "beta", start_char := 5, end_char := 9 }

/-- A sample record of document "B". -/
def mtB : ChunkMetadata :=
  { document_id := "B", filename := "b.txt", chunk_index := 0,
    content := "gamma", start_char := 0, end_char := 5 }

/-- A sample call sequence: one successful add of three records. -/
def demoOps : List StoreOp :=
  [StoreOp.add [[1, 0], [0, 1], [1, 1]] [mtA, mtA2, mtB]]

theorem C1_invariant_I1_witness :
    (runOps 2 demoOps).vectors.length = (runOps 2 demoOps).metadata.length :=
  C1_invariant_I1 2 demoOps

theorem C2_invariant_I2_witness :
    ∃ ps, lookupDoc "A" (runOps 2 demoOps).document_chunks = some ps ∧ 0 ∈ ps :=
  (C2_invariant_I2 2 demoOps).2 0 mtA (by decide)

theorem C3_delete_document_witness :
    (deleteDocument (runOps 2 demoOps) "A").1 = true ∧
      getDocumentChunkCount (deleteDocument (runOps 2 demoOps) "A").2 "A" = 0 ∧
      (deleteDocument (deleteDocument (runOps 2 demoOps) "A").2 "A").1 = false := by
  have h := C3_delete_document 2 demoOps "A"
  exact ⟨h.1.mpr ⟨mtA, by decide, rfl⟩, h.2.2.1, h.2.1⟩

theorem C4_search_witness :
    search (emptyStore 2) [1, 0] 3 none 0 = [] ∧
      (search (runOps 2 demoOps) [1, 0] 2 none 0).length ≤ 2 ∧
      (∀ p ∈ search (runOps 2 demoOps) [1, 0] 2 (some ["A"]) 0, p.1.document_id ∈ ["A"]) := by
  have h1 := C4_search (emptyStore 2) [1, 0] 3 none 0
  have h2 := C4_search (runOps 2 demoOps) [1, 0] 2 none 0
  have h3 := C4_search (runOps 2 demoOps) [1, 0] 2 (some ["A"]) 0
  exact ⟨h1.1 rfl, h2.2.1, h3.2.2.2.2 ["A"] rfl (by decide)⟩

/-! ## add_embeddings: validation contract (claim C5) -/

/-- C5: `add_embeddings` rejects a length mismatch with a validation error and
rejects rows of the wrong dimension, in both cases leaving the store
unchanged; on empty input it succeeds without changing the store. -/
theorem C5_add_validation (s : VectorStore) (es : List (List Rat)) (ms : List ChunkMetadata) :
    (es.length ≠ ms.length → addEmbeddings s es ms = Except.error VSError.lengthMismatch) ∧
      addEmbeddings s [] [] = Except.ok s ∧
      (es.length = ms.length → (∃ v ∈ es, v.length ≠ s.dimension) →
        addEmbeddings s es ms = Except.error VSError.dimMismatch) ∧
      (∀ e, addEmbeddings s es ms = Except.error e → applyOp s (StoreOp.add es ms) = s) := by
  refine ⟨?_, ?_, ?_, ?_⟩
  · intro h
    unfold addEmbeddings
    rw [if_pos h]
  · unfold addEmbeddings
    simp
  · intro hlen hex
    obtain ⟨v, hv, hvlen⟩ := hex
    unfold addEmbeddings
    rw [if_neg (fun hc => hc hlen)]
    rw [if_neg (List.ne_nil_of_mem hv)]
    rw [if_pos (List.any_eq_true.mpr ⟨v, hv, by simpa using hvlen⟩)]
  · intro e herr
    simp only [applyOp]
    rw [herr]

theorem C5_add_validation_witness :
    addEmbeddings (emptyStore 2) [[1, 0]] [mtA, mtB] = Except.error VSError.lengthMismatch ∧
      addEmbeddings (emptyStore 2) [] [] = Except.ok (emptyStore 2) ∧
      addEmbeddings (emptyStore 2) [[1, 0, 3]] [mtA] = Except.error VSError.dimMismatch ∧
      applyOp (emptyStore 2) (StoreOp.add [[1, 0, 3]] [mtA]) = emptyStore 2 := by
  have h1 := C5_add_validation (emptyStore 2) [[1, 0]] [mtA, mtB]
  have h2 := C5_add_validation (emptyStore 2) [[1, 0, 3]] [mtA]
  have herr : addEmbeddings (emptyStore 2) [[1, 0, 3]] [mtA] = Except.error VSError.dimMismatch :=
    h2.2.2.1 (by decide) ⟨[1, 0, 3], by simp, by decide⟩
  exact ⟨h1.1 (by decide), h1.2.1, herr, h2.2.2.2 VSError.dimMismatch herr⟩

/-! ## TextChunker: data model and constructor (chunker.py) -/

/-- A produced chunk (`TextChunk` dataclass in `chunker.py`). -/
structure TextChunk where
  content : List Char
  start_char : Nat
  end_char : Nat
  chunk_index : Nat
deriving DecidableEq, Repr

/-- Chunker configuration (`TextChunker.chunk_size` / `chunk_overlap`,
Python ints). -/
structure TextChunker where
  chunk_size : Int
  chunk_overlap : Int
deriving DecidableEq, Repr

/-- The `ValueError` raised by the `TextChunker` constructor. -/
inductive ChunkerError where
  | overlapNotLessThanSize
deriving DecidableEq, Repr

/-- `TextChunker.__init__`: rejects `chunk_overlap >= chunk_size`. -/
def mkTextChunker (chunk_size chunk_overlap : Int) : Except ChunkerError TextChunker :=
  if chunk_overlap ≥ chunk_size then
    .error .overlapNotLessThanSize
  else
    .ok { chunk_size := chunk_size, chunk_overlap := chunk_overlap }

/-- ASCII whitespace as recognised by Python's `str.strip` (the inputs
considered here contain no non-ASCII whitespace). -/
def isSpacePy (c : Char) : Bool :=
  c = ' ' || c = '\t' || c = '\n' || c = '\r' || c = '\x0b' || c = '\x0c'

/-- Python `str.strip()`. -/
def stripPy (s : List Char) : List Char :=
  ((s.dropWhile isSpacePy).reverse.dropWhile isSpacePy).reverse

/-- One pass of `re.sub(r' +', ' ', text)`: collapse runs of spaces; the
flag records whether the previous character was a space. -/
def collapseSpacesGo : Bool → List Char → List Char
  | _, [] => []
  | prevSpace, c :: rest =>
    if c = ' ' then
      (if prevSpace then [] else [' ']) ++ collapseSpacesGo true rest
    else
      c :: collapseSpacesGo false rest

/-- `re.sub(r' +', ' ', text)`. -/
def collapseSpaces (s : List Char) : List Char :=
  collapseSpacesGo false s

/-- Emit a completed newline run: runs of three or more become exactly two. -/
def nlRun (count : Nat) : List Char :=
  List.replicate (if count ≥ 3 then 2 else count) '\n'

/-- `re.sub` worker for newline collapsing, carrying the current run length. -/
def collapseNewlinesGo : Nat → List Char → List Char
  | count, [] => nlRun count
  | count, c :: rest =>
    if c = '\n' then collapseNewlinesGo (count + 1) rest
    else nlRun count ++ (c :: collapseNewlinesGo 0 rest)

/-- `re.sub(r'\n{3,}', '\n\n', text)`. -/
def collapseNewlines (s : List Char) : List Char :=
  collapseNewlinesGo 0 s

/-- `TextChunker._clean_text`: collapse spaces, collapse newline runs, strip. -/
def cleanText (s : List Char) : List Char :=
  stripPy (collapseNewlines (collapseSpaces s))

/-- Python `str.split(sep)` for a non-empty separator, written with explicit
fuel so that it is structurally recursive (the fuel argument strictly bounds
the length of the string being split). -/
def sosFuel (sep : List Char) : Nat → List Char → List (List Char)
  | 0, s => [s]
  | fuel + 1, s =>
    if sep = [] then [s]
    else if sep.isPrefixOf s then [] :: sosFuel sep fuel (s.drop sep.length)
    else
      match s with
      | [] => [[]]
      | c :: s2 =>
        match sosFuel sep fuel s2 with
        | [] => [[c]]
        | p :: ps => (c :: p) :: ps

/-- Python `text.split(separator)` (callers always pass a non-empty
separator). -/
def splitOnSep (sep s : List Char) : List (List Char) :=
  sosFuel sep (s.length + 1) s

/-- `TextChunker.SEPARATORS`. -/
def SEPARATORS : List (List Char) :=
  [['\n', '\n'], ['\n'], ['.', ' '], ['!', ' '], ['?', ' '], [';', ' '], [',', ' '], [' '], []]

/-- `TextChunker._recursive_split`, with fuel bounding the depth of the
separator list (each recursive call moves to the tail of the separator
list, so `seps.length` fuel always suffices). -/
def recursiveSplitFuel (chunk_size : Int) : Nat → List (List Char) → List Char → List (List Char)
  | 0, _, text => [text]
  | fuel + 1, seps, text =>
    match seps with
    | [] => text.map (fun c => [c])
    | sep :: rest =>
      if sep = [] then text.map (fun c => [c])
      else
        ((splitOnSep sep text).map (fun split =>
          if (split.length : Int) ≤ chunk_size then
            (if stripPy split = [] then [] else [stripPy split])
          else recursiveSplitFuel chunk_size fuel rest split)).flatten

/-- `TextChunker._recursive_split(text, separators)`. -/
def recursiveSplit (chunk_size : Int) (seps : List (List Char)) (text : List Char) :
    List (List Char) :=
  recursiveSplitFuel chunk_size seps.length seps text

/-- `" ".join(parts)`. -/
def joinSp (parts : List (List Char)) : List Char :=
  List.intercalate [' '] parts

/-- Python slice `s[i:]` for an `int` index `i` (negative indices count from
the end, clamped at zero). -/
def pySliceFrom (s : List Char) (i : Int) : List Char :=
  if i < 0 then s.drop (((s.length : Int) + i).toNat) else s.drop i.toNat

/-- `TextChunker._get_overlap_text`: the final `chunk_overlap` characters,
trimmed forward past the first space found in that window. -/
def getOverlapText (c : TextChunker) (text : List Char) : List Char :=
  if (text.length : Int) ≤ c.chunk_overlap then text
  else
    let overlap_portion := pySliceFrom text (-c.chunk_overlap)
    match overlap_portion.findIdx? (fun ch => ch = ' ') with
    | some space_idx => overlap_portion.drop (space_idx + 1)
    | none => overlap_portion

/-- The accumulation loop of `TextChunker._merge_splits_with_overlap`:
arguments are the remaining splits, the finished chunks, the running length
and the current chunk under construction. -/
def mergeGo (c : TextChunker) : List (List Char) → List (List Char) → Nat → List (List Char) →
    List (List Char)
  | [], chunks, _, current_chunk =>
    if current_chunk = [] then chunks else chunks ++ [joinSp current_chunk]
  | split :: rest, chunks, current_length, current_chunk =>
    if (current_length : Int) + split.length + 1 > c.chunk_size ∧ current_chunk ≠ [] then
      let chunk_text := joinSp current_chunk
      let overlap_text := getOverlapText c chunk_text
      if overlap_text ≠ [] then
        mergeGo c rest (chunks ++ [chunk_text]) (overlap_text.length + split.length + 1)
          [overlap_text, split]
      else
        mergeGo c rest (chunks ++ [chunk_text]) split.length [split]
    else
      mergeGo c rest chunks (current_length + split.length + 1) (current_chunk ++ [split])

/-- `TextChunker._merge_splits_with_overlap`. -/
def mergeSplitsWithOverlap (c : TextChunker) (splits : List (List Char)) : List (List Char) :=
  if splits = [] then [] else mergeGo c splits [] 0 []

/-- Python `text.find(sub, start)` (`none` models the `-1` result). -/
def pyFind (text sub : List Char) (start : Nat) : Option Nat :=
  (List.range' start (text.length + 1 - start)).find? (fun i => sub.isPrefixOf (text.drop i))

/-- The position-tracking loop at the end of `TextChunker.chunk_text`:
locate each chunk's first 50 characters from the advancing cursor (falling
back to the cursor itself), emit the `TextChunk`, and advance the cursor by
`max(start + len - overlap, cursor + 1)`. -/
def buildChunks (c : TextChunker) (text : List Char) :
    List (List Char) → Nat → Nat → List TextChunk
  | [], _, _ => []
  | chunk_content :: rest, idx, current_pos =>
    let start := (pyFind text (chunk_content.take 50) current_pos).getD current_pos
    let next_pos := (max ((start : Int) + chunk_content.length - c.chunk_overlap)
      ((current_pos : Int) + 1)).toNat
    { content := chunk_content, start_char := start,
      end_char := start + chunk_content.length, chunk_index := idx } ::
      buildChunks c text rest (idx + 1) next_pos

/-- `TextChunker.chunk_text`. -/
def chunkText (c : TextChunker) (text : List Char) : List TextChunk :=
  if text = [] ∨ stripPy text = [] then []
  else
    buildChunks c (cleanText text)
      (mergeSplitsWithOverlap c (recursiveSplit c.chunk_size SEPARATORS (cleanText text))) 0 0

/-! ## Chunker constructor validation (claim C6) -/

/-- C6: constructing a `TextChunker` fails exactly when
`chunk_overlap >= chunk_size`; in particular `(100, 100)` fails, and every
pair with `chunk_overlap < chunk_size` constructs successfully. -/
theorem C6_constructor_validation (chunk_size chunk_overlap : Int) :
    ((∃ c, mkTextChunker chunk_size chunk_overlap = Except.ok c) ↔
        chunk_overlap < chunk_size) ∧
      mkTextChunker 100 100 = Except.error ChunkerError.overlapNotLessThanSize := by
  refine ⟨?_, rfl⟩
  unfold mkTextChunker
  by_cases h : chunk_overlap ≥ chunk_size
  · rw [if_pos h]
    simp
    omega
  · rw [if_neg h]
    simp
    omega

theorem C6_constructor_validation_witness :
    (∃ c, mkTextChunker 512 50 = Except.ok c) ∧
      mkTextChunker 100 100 = Except.error ChunkerError.overlapNotLessThanSize :=
  ⟨(C6_constructor_validation 512 50).1.mpr (by decide), (C6_constructor_validation 512 50).2⟩

/-! ## Chunk offsets (claim C10) -/

theorem buildChunks_offsets (c : TextChunker) (text : List Char) :
    ∀ (chunks : List (List Char)) (idx pos : Nat) (ch : TextChunk),
      ch ∈ buildChunks c text chunks idx pos →
        ch.end_char = ch.start_char + ch.content.length := by
  intro chunks
  induction chunks with
  | nil =>
    intro idx pos ch h
    simp [buildChunks] at h
  | cons cc rest ih =>
    intro idx pos ch h
    simp only [buildChunks] at h
    rcases List.mem_cons.mp h with h1 | h1
    · subst h1; rfl
    · exact ih _ _ ch h1

/-- C10: every chunk produced by `chunk_text` satisfies
`end_char == start_char + len(content)`, including when positional recovery
falls back to the cursor. -/
theorem C10_offsets (c : TextChunker) (text : List Char) :
    ∀ ch ∈ chunkText c text, ch.end_char = ch.start_char + ch.content.length := by
  intro ch hch
  unfold chunkText at hch
  by_cases hg : text = [] ∨ stripPy text = []
  · rw [if_pos hg] at hch
    cases hch
  · rw [if_neg hg] at hch
    exact buildChunks_offsets c (cleanText text) _ 0 0 ch hch

/-- The single chunk produced for `"Short text."` with the default chunker. -/
def shortChunk : TextChunk :=
  { content := "Short text.".toList, start_char := 0, end_char := 11, chunk_index := 0 }

theorem C10_offsets_witness : shortChunk.end_char = shortChunk.start_char + shortChunk.content.length :=
  C10_offsets { chunk_size := 512, chunk_overlap := 50 } "Short text.".toList shortChunk (by decide)

/-! ## The 500-character chunking scenario (claim C8) -/

/-- The text of the scenario: `"This is a test sentence. " * 20`. -/
def text500 : List Char :=
  (List.replicate 20 "This is a test sentence. ".toList).flatten

/-- C8: a `(chunk_size=100, chunk_overlap=20)` chunker on the 500-character
test text yields more than one chunk, each at most 150 characters long. -/
theorem C8_scenario :
    1 < (chunkText { chunk_size := 100, chunk_overlap := 20 } text500).length ∧
      ∀ ch ∈ chunkText { chunk_size := 100, chunk_overlap := 20 } text500,
        ch.content.length ≤ 150 := by
  decide

/-! ## chunk_text produces chunks on non-blank input (claim C7) -/

theorem sosFuel_ne_nil (sep : List Char) (fuel : Nat) (s : List Char) :
    sosFuel sep fuel s ≠ [] := by
  cases fuel with
  | zero => simp [sosFuel]
  | succ fuel =>
    unfold sosFuel
    by_cases h1 : sep = []
    · simp [h1]
    · rw [if_neg h1]
      by_cases h2 : sep.isPrefixOf s
      · rw [if_pos h2]; simp
      · rw [if_neg h2]
        cases s with
        | nil => simp
        | cons c s2 =>
          cases hrec : sosFuel sep fuel s2 with
          | nil => simp [hrec]
          | cons p ps => simp [hrec]

theorem sosFuel_nil_input (sep : List Char) (fuel : Nat) :
    sosFuel sep fuel [] = [[]] := by
  cases fuel with
  | zero => rfl
  | succ fuel =>
    unfold sosFuel
    by_cases h1 : sep = []
    · simp [h1]
    · rw [if_neg h1]
      rw [if_neg (by cases sep with | nil => exact absurd rfl h1 | cons a t => simp [List.isPrefixOf])]

theorem getLast?_drop_of_lt (s : List Char) :
    ∀ k : Nat, k < s.length → (s.drop k).getLast? = s.getLast? := by
  induction s with
  | nil => intro k hk; simp at hk
  | cons c s2 ih =>
    intro k hk
    cases k with
    | zero => rfl
    | succ k =>
      rw [List.drop_succ_cons]
      rw [List.length_cons] at hk
      have hk2 : k < s2.length := Nat.lt_of_succ_lt_succ hk
      rw [ih k hk2]
      cases s2 with
      | nil => simp at hk2
      | cons b t => rw [List.getLast?_cons_cons]

theorem sosFuel_last (sep : List Char) (hsep : sep ≠ []) (sc : Char)
    (hsc : sep.getLast? = some sc) (hscw : isSpacePy sc = true) :
    ∀ (fuel : Nat) (s : List Char), s.length < fuel →
      ∀ c, s.getLast? = some c → isSpacePy c = false →
        ∃ p, (sosFuel sep fuel s).getLast? = some p ∧ p.getLast? = some c := by
  intro fuel
  induction fuel with
  | zero => intro s hs; omega
  | succ fuel ih =>
    intro s hs c hc hcw
    unfold sosFuel
    rw [if_neg hsep]
    by_cases h2 : sep.isPrefixOf s
    · rw [if_pos h2]
      have hpre : sep <+: s := List.isPrefixOf_iff_prefix.mp h2
      have hlen : sep.length ≤ s.length := hpre.length_le
      have hne : sep.length ≠ s.length := by
        intro heq
        have heq2 : sep = s := hpre.eq_of_length heq
        rw [← heq2] at hc
        rw [hsc] at hc
        cases hc
        rw [hscw] at hcw
        cases hcw
      have hlt : sep.length < s.length := Nat.lt_of_le_of_ne hlen hne
      have hdrop : (s.drop sep.length).getLast? = some c := by
        rw [getLast?_drop_of_lt s sep.length hlt, hc]
      have hdlen : (s.drop sep.length).length < fuel := by
        rw [List.length_drop]
        have h1 : 1 ≤ sep.length := by
          cases sep with
          | nil => exact absurd rfl hsep
          | cons a t => simp
        omega
      obtain ⟨p, hp1, hp2⟩ := ih (s.drop sep.length) hdlen c hdrop hcw
      refine ⟨p, ?_, hp2⟩
      cases hrec : sosFuel sep fuel (s.drop sep.length) with
      | nil => exact absurd hrec (sosFuel_ne_nil sep fuel _)
      | cons q qs =>
        rw [hrec] at hp1
        rw [List.getLast?_cons_cons]
        exact hp1
    · rw [if_neg h2]
      cases s with
      | nil => cases hc
      | cons c0 s2 =>
        cases s2 with
        | nil =>
          have hc0 : c0 = c := by simpa using hc
          subst hc0
          simp only [sosFuel_nil_input]
          exact ⟨[c0], by simp, by simp⟩
        | cons b t =>
          have hc2 : (b :: t).getLast? = some c := by
            rw [List.getLast?_cons_cons] at hc
            exact hc
          have hlen2 : (b :: t).length < fuel := by
            simp only [List.length_cons] at hs ⊢
            omega
          obtain ⟨p, hp1, hp2⟩ := ih (b :: t) hlen2 c hc2 hcw
          cases hrec : sosFuel sep fuel (b :: t) with
          | nil => exact absurd hrec (sosFuel_ne_nil sep fuel _)
          | cons p0 ps0 =>
            rw [hrec] at hp1
            simp only [hrec]
            cases ps0 with
            | nil =>
              simp only [List.getLast?_singleton] at hp1
              cases hp1
              refine ⟨c0 :: p, by simp, ?_⟩
              cases hp0 : p with
              | nil => rw [hp0] at hp2; cases hp2
              | cons x xs =>
                rw [hp0] at hp2
                rw [List.getLast?_cons_cons]
                exact hp2
            | cons r rs =>
              rw [List.getLast?_cons_cons] at hp1
              refine ⟨p, ?_, hp2⟩
              rw [List.getLast?_cons_cons]
              exact hp1

theorem splitOnSep_last (sep : List Char) (hsep : sep ≠ []) (sc : Char)
    (hsc : sep.getLast? = some sc) (hscw : isSpacePy sc = true)
    (s : List Char) (c : Char) (hc : s.getLast? = some c) (hcw : isSpacePy c = false) :
    ∃ p, (splitOnSep sep s).getLast? = some p ∧ p.getLast? = some c :=
  sosFuel_last sep hsep sc hsc hscw (s.length + 1) s (Nat.lt_succ_self _) c hc hcw

theorem mem_dropWhile_of_not (p : Char → Bool) {c : Char} (hc : p c = false) :
    ∀ {s : List Char}, c ∈ s → c ∈ s.dropWhile p := by
  intro s
  induction s with
  | nil => intro h; cases h
  | cons a rest ih =>
    intro h
    by_cases ha : p a = true
    · rcases List.mem_cons.mp h with h1 | h1
      · rw [h1, ha] at hc; cases hc
      · rw [List.dropWhile_cons, if_pos ha]
        exact ih h1
    · rw [List.dropWhile_cons, if_neg ha]
      exact h

theorem mem_of_mem_stripPy {c : Char} {s : List Char} (h : c ∈ stripPy s) : c ∈ s := by
  unfold stripPy at h
  rw [List.mem_reverse] at h
  have h2 := (List.dropWhile_sublist isSpacePy).mem h
  rw [List.mem_reverse] at h2
  exact (List.dropWhile_sublist isSpacePy).mem h2

theorem stripPy_ne_nil_of_mem {s : List Char} {c : Char} (hc : c ∈ s)
    (hw : isSpacePy c = false) : stripPy s ≠ [] := by
  have h1 : c ∈ s.dropWhile isSpacePy := mem_dropWhile_of_not _ hw hc
  have h2 : c ∈ (s.dropWhile isSpacePy).reverse := List.mem_reverse.mpr h1
  have h3 : c ∈ (s.dropWhile isSpacePy).reverse.dropWhile isSpacePy :=
    mem_dropWhile_of_not _ hw h2
  intro he
  unfold stripPy at he
  rw [List.reverse_eq_nil_iff] at he
  rw [he] at h3
  cases h3

theorem head?_dropWhile_not (p : Char → Bool) :
    ∀ (s : List Char) (c : Char), (s.dropWhile p).head? = some c → p c = false := by
  intro s
  induction s with
  | nil => intro c h; cases h
  | cons a rest ih =>
    intro c h
    by_cases ha : p a = true
    · rw [List.dropWhile_cons, if_pos ha] at h
      exact ih c h
    · rw [List.dropWhile_cons, if_neg ha] at h
      cases h
      cases hpa : p a with
      | false => rfl
      | true => exact absurd hpa ha

theorem stripPy_getLast_nonspace (s : List Char) (h : stripPy s ≠ []) :
    ∃ c, (stripPy s).getLast? = some c ∧ isSpacePy c = false := by
  unfold stripPy at h ⊢
  rw [List.getLast?_reverse]
  cases hh : ((s.dropWhile isSpacePy).reverse.dropWhile isSpacePy).head? with
  | none =>
    rw [List.head?_eq_none_iff] at hh
    rw [hh] at h
    simp at h
  | some c => exact ⟨c, rfl, head?_dropWhile_not _ _ c hh⟩

theorem exists_nonspace_of_stripPy_ne_nil (s : List Char) (h : stripPy s ≠ []) :
    ∃ c ∈ s, isSpacePy c = false := by
  obtain ⟨c, h1, h2⟩ := stripPy_getLast_nonspace s h
  exact ⟨c, mem_of_mem_stripPy (List.mem_of_getLast?_eq_some h1), h2⟩

theorem mem_collapseSpacesGo {c : Char} (hc : ¬c = ' ') :
    ∀ (b : Bool) (s : List Char), c ∈ s → c ∈ collapseSpacesGo b s := by
  intro b s
  induction s generalizing b with
  | nil => intro h; cases h
  | cons a rest ih =>
    intro h
    unfold collapseSpacesGo
    by_cases ha : a = ' '
    · rw [if_pos ha]
      rcases List.mem_cons.mp h with h1 | h1
      · exact absurd (h1.trans ha) hc
      · exact List.mem_append.mpr (Or.inr (ih true h1))
    · rw [if_neg ha]
      rcases List.mem_cons.mp h with h1 | h1
      · rw [h1]; exact List.mem_cons_self a _
      · exact List.mem_cons_of_mem a (ih false h1)

theorem mem_collapseNewlinesGo {c : Char} (hc : ¬c = '\n') :
    ∀ (n : Nat) (s : List Char), c ∈ s → c ∈ collapseNewlinesGo n s := by
  intro n s
  induction s generalizing n with
  | nil => intro h; cases h
  | cons a rest ih =>
    intro h
    unfold collapseNewlinesGo
    by_cases ha : a = '\n'
    · rw [if_pos ha]
      rcases List.mem_cons.mp h with h1 | h1
      · exact absurd (h1.trans ha) hc
      · exact ih (n + 1) h1
    · rw [if_neg ha]
      rcases List.mem_cons.mp h with h1 | h1
      · rw [h1]
        exact List.mem_append.mpr (Or.inr (List.mem_cons_self a _))
      · exact List.mem_append.mpr (Or.inr (List.mem_cons_of_mem a (ih 0 h1)))

theorem cleanText_getLast_nonspace (text : List Char) (h : stripPy text ≠ []) :
    ∃ c, (cleanText text).getLast? = some c ∧ isSpacePy c = false := by
  obtain ⟨c0, hc0mem, hc0w⟩ := exists_nonspace_of_stripPy_ne_nil text h
  have hcsp : ¬c0 = ' ' := by
    intro he
    rw [he] at hc0w
    simp [isSpacePy] at hc0w
  have hcnl : ¬c0 = '\n' := by
    intro he
    rw [he] at hc0w
    simp [isSpacePy] at hc0w
  have h1 : c0 ∈ collapseSpaces text := mem_collapseSpacesGo hcsp false text hc0mem
  have h2 : c0 ∈ collapseNewlines (collapseSpaces text) := mem_collapseNewlinesGo hcnl 0 _ h1
  exact stripPy_getLast_nonspace _ (stripPy_ne_nil_of_mem h2 hc0w)

theorem recursiveSplitFuel_ne_nil (cs : Int) :
    ∀ (fuel : Nat) (seps : List (List Char)),
      (∀ sep ∈ seps, sep = [] ∨ ∃ sc, sep.getLast? = some sc ∧ isSpacePy sc = true) →
      ∀ (text : List Char) (c : Char), text.getLast? = some c → isSpacePy c = false →
        recursiveSplitFuel cs fuel seps text ≠ [] := by
  intro fuel
  induction fuel with
  | zero =>
    intro seps hseps text c hc hcw
    simp [recursiveSplitFuel]
  | succ fuel ih =>
    intro seps hseps text c hc hcw
    have htne : text ≠ [] := by
      intro he
      rw [he] at hc
      cases hc
    cases seps with
    | nil => simpa [recursiveSplitFuel] using htne
    | cons sep rest =>
      simp only [recursiveSplitFuel]
      by_cases hsepnil : sep = []
      · rw [if_pos hsepnil]
        simpa using htne
      · rw [if_neg hsepnil]
        rcases hseps sep (List.mem_cons_self _ _) with h1 | ⟨sc, hsc1, hsc2⟩
        · exact absurd h1 hsepnil
        obtain ⟨p, hp1, hp2⟩ := splitOnSep_last sep hsepnil sc hsc1 hsc2 text c hc hcw
        have hpmem : p ∈ splitOnSep sep text := List.mem_of_getLast?_eq_some hp1
        have hcp : c ∈ p := List.mem_of_getLast?_eq_some hp2
        intro hflat
        rw [List.flatten_eq_nil_iff] at hflat
        have hfp := hflat _ (List.mem_map_of_mem _ hpmem)
        by_cases hplen : (p.length : Int) ≤ cs
        · rw [if_pos hplen] at hfp
          by_cases hstrip : stripPy p = []
          · exact stripPy_ne_nil_of_mem hcp hcw hstrip
          · rw [if_neg hstrip] at hfp
            cases hfp
        · rw [if_neg hplen] at hfp
          exact ih rest (fun s2 hs2 => hseps s2 (List.mem_cons_of_mem _ hs2)) p c hp2 hcw hfp

theorem separators_ws :
    ∀ sep ∈ SEPARATORS, sep = [] ∨ ∃ sc, sep.getLast? = some sc ∧ isSpacePy sc = true := by
  intro sep h
  fin_cases h
  · exact Or.inr ⟨'\n', rfl, rfl⟩
  · exact Or.inr ⟨'\n', rfl, rfl⟩
  · exact Or.inr ⟨' ', rfl, rfl⟩
  · exact Or.inr ⟨' ', rfl, rfl⟩
  · exact Or.inr ⟨' ', rfl, rfl⟩
  · exact Or.inr ⟨' ', rfl, rfl⟩
  · exact Or.inr ⟨' ', rfl, rfl⟩
  · exact Or.inr ⟨' ', rfl, rfl⟩
  · exact Or.inl rfl

theorem mergeGo_ne_nil (c : TextChunker) :
    ∀ (splits chunks : List (List Char)) (n : Nat) (current : List (List Char)),
      (splits ≠ [] ∨ chunks ≠ [] ∨ current ≠ []) → mergeGo c splits chunks n current ≠ [] := by
  intro splits
  induction splits with
  | nil =>
    intro chunks n current h
    simp only [mergeGo]
    by_cases hcur : current = []
    · rw [if_pos hcur]
      rcases h with h1 | h1 | h1
      · exact absurd rfl h1
      · exact h1
      · exact absurd hcur h1
    · rw [if_neg hcur]
      simp
  | cons split rest ih =>
    intro chunks n current h
    simp only [mergeGo]
    by_cases hcond : (n : Int) + split.length + 1 > c.chunk_size ∧ current ≠ []
    · rw [if_pos hcond]
      by_cases hov : getOverlapText c (joinSp current) ≠ []
      · rw [if_pos hov]
        exact ih _ _ _ (Or.inr (Or.inr (by simp)))
      · rw [if_neg hov]
        exact ih _ _ _ (Or.inr (Or.inr (by simp)))
    · rw [if_neg hcond]
      exact ih _ _ _ (Or.inr (Or.inr (by simp)))

theorem mergeSplitsWithOverlap_ne_nil (c : TextChunker) (splits : List (List Char))
    (h : splits ≠ []) : mergeSplitsWithOverlap c splits ≠ [] := by
  unfold mergeSplitsWithOverlap
  rw [if_neg h]
  exact mergeGo_ne_nil c splits [] 0 [] (Or.inl h)

theorem buildChunks_chunk_index (c : TextChunker) (text : List Char) :
    ∀ (chunks : List (List Char)) (idx pos : Nat),
      (buildChunks c text chunks idx pos).map (fun ch => ch.chunk_index) =
        List.range' idx chunks.length := by
  intro chunks
  induction chunks with
  | nil => intro idx pos; rfl
  | cons cc rest ih =>
    intro idx pos
    simp only [buildChunks, List.map_cons, List.length_cons]
    rw [List.range'_succ]
    rw [ih]

theorem buildChunks_length (c : TextChunker) (text : List Char)
    (chunks : List (List Char)) (idx pos : Nat) :
    (buildChunks c text chunks idx pos).length = chunks.length := by
  have h := buildChunks_chunk_index c text chunks idx pos
  have h2 := congrArg List.length h
  rw [List.length_map, List.length_range'] at h2
  exact h2

/-- C7 as stated is refuted by any whitespace-only text: `" "` is non-empty,
the chunker parameters are valid (`20 < 100` also `50 < 512`), yet
`chunk_text` returns zero chunks. -/
theorem C7_counterexample :
    ([' '] : List Char) ≠ [] ∧ (50 : Int) < 512 ∧
      chunkText { chunk_size := 512, chunk_overlap := 50 } [' '] = [] := by
  refine ⟨by simp, by decide, ?_⟩
  decide

/-- C7 amended: for every input text that is non-empty **after stripping
whitespace** (the code returns `[]` for blank input), a chunker with
`chunk_overlap < chunk_size` produces at least one chunk, and the produced
chunks carry `chunk_index` values exactly `0..N-1` in output order. -/
theorem C7_nonempty_chunks (c : TextChunker) (text : List Char)
    (_hov : c.chunk_overlap < c.chunk_size) (h : stripPy text ≠ []) :
    1 ≤ (chunkText c text).length ∧
      (chunkText c text).map (fun ch => ch.chunk_index) =
        List.range (chunkText c text).length := by
  have htext : text ≠ [] := by
    intro he
    rw [he] at h
    exact h rfl
  have hguard : ¬(text = [] ∨ stripPy text = []) := by
    intro hg
    rcases hg with hg | hg
    · exact htext hg
    · exact h hg
  have hdef : chunkText c text =
      buildChunks c (cleanText text)
        (mergeSplitsWithOverlap c (recursiveSplit c.chunk_size SEPARATORS (cleanText text))) 0 0 := by
    unfold chunkText
    rw [if_neg hguard]
  obtain ⟨ce, hce1, hce2⟩ := cleanText_getLast_nonspace text h
  have hsplits : recursiveSplit c.chunk_size SEPARATORS (cleanText text) ≠ [] :=
    recursiveSplitFuel_ne_nil c.chunk_size SEPARATORS.length SEPARATORS separators_ws
      (cleanText text) ce hce1 hce2
  have hchunks : mergeSplitsWithOverlap c (recursiveSplit c.chunk_size SEPARATORS (cleanText text)) ≠ [] :=
    mergeSplitsWithOverlap_ne_nil c _ hsplits
  have hlen : (chunkText c text).length =
      (mergeSplitsWithOverlap c (recursiveSplit c.chunk_size SEPARATORS (cleanText text))).length := by
    rw [hdef, buildChunks_length]
  constructor
  · rw [hlen]
    have := List.length_pos.mpr hchunks
    omega
  · rw [hdef, buildChunks_chunk_index, List.range_eq_range']
    rw [buildChunks_length]

theorem C7_nonempty_chunks_witness :
    stripPy "a".toList ≠ [] ∧ (50 : Int) < 512 ∧
      1 ≤ (chunkText { chunk_size := 512, chunk_overlap := 50 } "a".toList).length :=
  ⟨by decide, by decide,
    (C7_nonempty_chunks { chunk_size := 512, chunk_overlap := 50 } "a".toList
      (by decide) (by decide)).1⟩
